import Mathlib

/-!
Verification of the Markov sentence generator's model-construction and
sampling engine, a shallow embedding of `text_generator.py` from
patrick-brian-mooney/markov-sentence-generator.

Conventions of the embedding:
* Python strings are `String`; Python's `x in s` membership test on strings
  is substring containment (`pyInStr`).
* Python dicts are association lists in insertion order (`alistLookup`,
  `alistInsert`): assignment to an existing key updates it in place,
  assignment to a fresh key appends, iteration follows the list order.
* Python floats are `ℚ`; every count the code ever stores is an integer-valued
  float and every probability a quotient of such, so rational arithmetic is
  exact where the floating code is approximate.
* Fallible code returns `Except PyError`; in-place mutation of a caller's
  list (in `TextGenerator.next`) is modelled by returning the final list.
-/

/-- `startsWithL needle l`: the list `l` starts with `needle`. -/
def startsWithL : List Char → List Char → Bool
  | [], _ => true
  | _ :: _, [] => false
  | a :: as, b :: bs => a = b && startsWithL as bs

/-- `hasSub needle hay`: `needle` occurs contiguously inside `hay`. -/
def hasSub (needle : List Char) : List Char → Bool
  | [] => needle.isEmpty
  | c :: rest => startsWithL needle (c :: rest) || hasSub needle rest

/-- Python's `needle in haystack` test on strings: substring containment. -/
def pyInStr (needle haystack : String) : Bool :=
  hasSub needle.data haystack.data

/-- `sentence_ending_punct = r'.!?'` (text_generator.py line 55). -/
def sentence_ending_punct : String := ".!?"

/-- `punct_with_space_after = r'.,\:!?;'` (text_generator.py line 54);
the raw Python string contains a literal backslash. -/
def punct_with_space_after : String := ".,\\:!?;"

/-- A token: a word-like string or a single character, per tokenization mode. -/
abbrev Token := String

/-- A next-token distribution: one inner Python dict of `the_mapping` /
`the_temp_mapping`, in insertion order. -/
abbrev NextDist := List (Token × ℚ)

/-- The outer dict mapping a context (tuple of tokens, here a list) to its
next-token distribution, in insertion order. -/
abbrev Mapping := List (List Token × NextDist)

/-- The Python exceptions the embedded fragments can raise.
`invalidInputError` appears in the spec's error taxonomy only; no such class
exists in the code, and the constructor exists so that the spec's claim about
it can be stated. -/
inductive PyError where
  | indexError
  | invalidInputError
  | runtimeError
  deriving DecidableEq

/-- Python dict read `d[k]` / `k in d`: the first (unique) matching entry. -/
def alistLookup {β : Type} (k : List Token) : List (List Token × β) → Option β
  | [] => none
  | (k0, v0) :: rest => if k0 = k then some v0 else alistLookup k rest

/-- Python dict write `d[k] = v`: update the existing entry in place,
or append a fresh entry at the end (insertion order preserved). -/
def alistInsert {β : Type} (k : List Token) (v : β) :
    List (List Token × β) → List (List Token × β)
  | [] => [(k, v)]
  | (k0, v0) :: rest =>
      if k0 = k then (k, v) :: rest else (k0, v0) :: alistInsert k v rest

/-- Token-keyed dict read, for the inner distributions. -/
def wordLookup (w : Token) : NextDist → Option ℚ
  | [] => none
  | (w0, v0) :: rest => if w0 = w then some v0 else wordLookup w rest

/-- Token-keyed dict write, for the inner distributions. -/
def wordInsert (w : Token) (v : ℚ) : NextDist → NextDist
  | [] => [(w, v)]
  | (w0, v0) :: rest =>
      if w0 = w then (w, v) :: rest else (w0, v0) :: wordInsert w v rest

/-- The inner-dict update of `TextGenerator.addItemToTempMapping`
(text_generator.py lines 452-459): `+= 1.0` if `word` is present,
`= 1.0` otherwise (also covering the fresh `{}` entry). -/
def bumpWord (w : Token) (dist : NextDist) : NextDist :=
  match wordLookup w dist with
  | some c => wordInsert w (c + 1) dist
  | none => wordInsert w 1 dist

/-- `TextGenerator.addItemToTempMapping(history, word, the_temp_mapping)`
(text_generator.py lines 441-460): register `word` under `history` and,
looping `history = history[1:]`, under every nonempty trailing suffix. -/
def addItemToTempMapping : List Token → Token → Mapping → Mapping
  | [], _, m => m
  | h :: rest, w, m =>
      addItemToTempMapping rest w
        (alistInsert (h :: rest) (bumpWord w ((alistLookup (h :: rest) m).getD [])) m)

/-- The `history` slice chosen at loop position `i` of
`TextGenerator._build_mapping` (text_generator.py lines 495-498):
`token_list[: i + 1]` when `i <= markov_length`, else
`token_list[i - markov_length + 1 : i + 1]`. -/
def historyAt (tl : List Token) (K i : ℕ) : List Token :=
  if i ≤ K then tl.take (i + 1) else (tl.drop (i + 1 - K)).take K

/-- One iteration of the training loop of `TextGenerator._build_mapping`
(text_generator.py lines 494-503) at position `i`, acting on the pair
(starts list, temp mapping). `history[-1]` on an empty history is an
IndexError (reachable only for `markov_length = 0`); `token_list[i + 1]`
is always in range at the loop's call sites (`1 ≤ i ≤ len - 2`), so it is
rendered total with `getD`. -/
def buildStep (tl : List Token) (K : ℕ) (st : List Token × Mapping) (i : ℕ) :
    Except PyError (List Token × Mapping) :=
  match (historyAt tl K i).getLast? with
  | none => .error .indexError
  | some lastTok =>
      .ok (if pyInStr lastTok sentence_ending_punct
              && !(pyInStr (tl.getD (i + 1) "") punct_with_space_after)
           then st.1 ++ [tl.getD (i + 1) ""] else st.1,
           addItemToTempMapping (historyAt tl K i) (tl.getD (i + 1) "") st.2)

/-- Run the training loop over the given positions in order. -/
def runSteps (tl : List Token) (K : ℕ) :
    List ℕ → List Token × Mapping → Except PyError (List Token × Mapping)
  | [], st => .ok st
  | i :: is, st =>
      match buildStep tl K st i with
      | .error e => .error e
      | .ok st' => runSteps tl K is st'

/-- `sum(followset.values())` (text_generator.py line 506). -/
def distTotal (dist : NextDist) : ℚ := (dist.map Prod.snd).sum

/-- The normalizing step for one context (text_generator.py line 507):
`dict([(k, v / total) for k, v in followset.items()])`. -/
def normDist (dist : NextDist) : NextDist :=
  dist.map (fun p => (p.1, p.2 / distTotal dist))

/-- The normalization loop of `TextGenerator._build_mapping`
(text_generator.py lines 505-507), preserving dict iteration order. -/
def normalizeMapping (temp : Mapping) : Mapping :=
  temp.map (fun e => (e.1, normDist e.2))

/-- `TextGenerator._build_mapping(token_list, markov_length)`
(text_generator.py lines 486-511), returning the `(starts, the_mapping)`
pair it stores into the chains. `starts.append(token_list[0])` raises
IndexError on an empty token list; then the loop runs over
`range(1, len(token_list) - 1)` and the result is normalized. -/
def buildMapping (tl : List Token) (K : ℕ) :
    Except PyError (List Token × Mapping) :=
  match tl with
  | [] => .error .indexError
  | t0 :: _ =>
      (runSteps tl K (List.range' 1 (tl.length - 2)) ([t0], [])).map
        (fun r => (r.1, normalizeMapping r.2))

/-- The shortening loop of `TextGenerator.next` (text_generator.py
lines 471-476): pop the head of `prevList` until the list is a key of
`the_mapping`; popping an empty list raises IndexError, modelled as `none`
(the list is left empty in that case). -/
def shortenLoop (m : Mapping) : List Token → Option (List Token)
  | [] => if (alistLookup ([] : List Token) m).isSome then some [] else none
  | x :: rest =>
      if (alistLookup (x :: rest) m).isSome then some (x :: rest)
      else shortenLoop m rest

/-- The accumulation loop of `TextGenerator.next` (text_generator.py
lines 479-483): walk the distribution in iteration order, accumulating
weights, and return the first token whose cumulative weight reaches the
drawn value; if the loop exhausts the distribution, `retval` keeps its
initial value `""`. -/
def pickLoop (u : ℚ) : ℚ → NextDist → Token
  | _, [] => ""
  | acc, (k, v) :: rest => if u ≤ acc + v then k else pickLoop u (acc + v) rest

/-- `TextGenerator.next(prevList, the_mapping)` (text_generator.py lines
462-484) with the random draw `u` made explicit. Returns the result
together with the final state of the caller's `prevList` (mutated in place
by the Python code) and of `the_mapping` (never written). -/
def nextToken (prevList : List Token) (m : Mapping) (u : ℚ) :
    Token × List Token × Mapping :=
  match shortenLoop m prevList with
  | none => (".", [], m)
  | some l => (pickLoop u 0 ((alistLookup l m).getD []), l, m)

/-- The chains object of `MarkovChainTextModel.__init__` (text_generator.py
lines 303-310): `the_starts` and `the_mapping` start as `None`. -/
structure MarkovChainTextModel where
  the_starts : Option (List Token)
  markov_length : ℕ
  the_mapping : Option Mapping
  character_tokens : Bool
  deriving DecidableEq

/-- A freshly instantiated, untrained chains object. -/
def initModel : MarkovChainTextModel :=
  { the_starts := none, markov_length := 0, the_mapping := none,
    character_tokens := false }

/-- `TextGenerator._build_mapping` at the state level (text_generator.py
lines 508-511): on success every field of `self.chains` is overwritten with
values computed from the new token list alone. -/
def buildMappingS (chains : MarkovChainTextModel) (tl : List Token) (K : ℕ)
    (ct : Bool) : Except PyError MarkovChainTextModel :=
  match chains, buildMapping tl K with
  | _, .error e => .error e
  | _, .ok (starts, m) =>
      .ok { the_starts := some starts, markov_length := K,
            the_mapping := some m, character_tokens := ct }

/-- `random.choice(self.chains.the_starts)` in `TextGenerator._gen_sentence`
(text_generator.py line 556), with the uniformly drawn index `j` explicit:
the element at position `j` of the starts list. -/
def chooseStart (starts : List Token) (j : ℕ) : Token :=
  starts.getD j ""

/-- How the `_produce_text` generator terminates once its loop is done:
its body ends in `raise StopIteration` (text_generator.py line 598), which
inside a generator is converted to `RuntimeError` by PEP 479 on every
Python ≥ 3.7; on Python ≤ 3.6 it ended the generator normally. -/
inductive GenTermination where
  | normal
  | runtimeError
  deriving DecidableEq

/-- Python's `str.strip()`: remove leading and trailing whitespace
(structural, so that concrete runs reduce). -/
def pyStrip (s : String) : String :=
  ⟨((s.data.dropWhile Char.isWhitespace).reverse.dropWhile
      Char.isWhitespace).reverse⟩

/-- Python's `the_text[-1] != "\n"` test, negated: the last character is a
newline (`the_text[-1]` on the empty string raises IndexError, which the
code catches; the caller below tests emptiness first). -/
def lastIsNewline (s : String) : Bool := s.data.getLast? = some '\n'

/-- The loop body of `TextGenerator._produce_text` (text_generator.py lines
586-597) over the remaining sentence indices, carrying the accumulated
`the_text` and collecting the yielded paragraphs. `sentences i` is the text
the `i`-th `self._gen_sentence()` call produces, `coins i` the `i`-th
`random.random()` draw, and `subst` the external
`th.multi_replace(_, self.final_substitutions)` collaborator. -/
def produceLoop (n : ℕ) (p : ℚ) (sentences : ℕ → String) (coins : ℕ → ℚ)
    (subst : String → String) : List ℕ → String → List String
  | [], _ => []
  | i :: is, text =>
      let text1 :=
        if text = "" then text
        else if lastIsNewline text then text
        else text ++ " "
      let text2 := text1 ++ sentences i
      if coins i ≤ p ∨ i = n - 1 then
        (pyStrip (subst text2) ++ "\n") :: produceLoop n p sentences coins subst is ""
      else produceLoop n p sentences coins subst is text2

/-- `TextGenerator._produce_text(sentences_desired, paragraph_break_probability)`
(text_generator.py lines 577-598): the paragraphs the generator yields over
`range(0, sentences_desired)`, paired with how it then terminates. The
trailing `raise StopIteration` inside the generator body surfaces as
`RuntimeError` under PEP 479 (Python ≥ 3.7). -/
def produceText (n : ℕ) (p : ℚ) (sentences : ℕ → String) (coins : ℕ → ℚ)
    (subst : String → String) : List String × GenTermination :=
  (produceLoop n p sentences coins subst (List.range n) "", .runtimeError)

/-- Modelled from the spec (section 4.1, `train`): the history the spec says
is registered at position `i` — "the trailing slice of tokens up to length
`min(i+1, order)` ending at `i`" — for comparison with `historyAt`. -/
def specHistoryAt (tl : List Token) (K i : ℕ) : List Token :=
  (tl.take (i + 1)).drop (i + 1 - min (i + 1) K)

/-! ### Dictionary lemmas -/

theorem alistLookup_alistInsert_self {β : Type} (k : List Token) (v : β) :
    ∀ l : List (List Token × β), alistLookup k (alistInsert k v l) = some v := by
  intro l
  induction l with
  | nil => simp [alistInsert, alistLookup]
  | cons e rest ih =>
      obtain ⟨k0, v0⟩ := e
      by_cases h : k0 = k
      · simp [alistInsert, alistLookup, h]
      · simp [alistInsert, alistLookup, h, ih]

theorem alistLookup_alistInsert_ne {β : Type} {k k' : List Token} (v : β)
    (h : k' ≠ k) :
    ∀ l : List (List Token × β),
      alistLookup k' (alistInsert k v l) = alistLookup k' l := by
  intro l
  induction l with
  | nil =>
      have h' : ¬ k = k' := fun hk => h hk.symm
      simp [alistInsert, alistLookup, h']
  | cons e rest ih =>
      obtain ⟨k0, v0⟩ := e
      by_cases h0 : k0 = k
      · subst h0
        have h' : ¬ k0 = k' := fun hk => h hk.symm
        simp [alistInsert, alistLookup, h']
      · by_cases h1 : k0 = k'
        · simp [alistInsert, alistLookup, h0, h1, h]
        · simp [alistInsert, alistLookup, h0, h1, ih]

theorem alistLookup_isSome_alistInsert {β : Type} (k k' : List Token) (v : β)
    (l : List (List Token × β)) :
    (alistLookup k' (alistInsert k v l)).isSome
      ↔ k' = k ∨ (alistLookup k' l).isSome := by
  by_cases h : k' = k
  · subst h; simp [alistLookup_alistInsert_self]
  · rw [alistLookup_alistInsert_ne v h l]
    simp [h]

theorem mem_alistInsert {β : Type} (k : List Token) (v : β) :
    ∀ (l : List (List Token × β)) (p : List Token × β),
      p ∈ alistInsert k v l → p = (k, v) ∨ p ∈ l := by
  intro l
  induction l with
  | nil => intro p h; simpa [alistInsert] using h
  | cons e rest ih =>
      obtain ⟨k0, v0⟩ := e
      intro p h
      by_cases h0 : k0 = k
      · rw [alistInsert, if_pos h0] at h
        rcases List.mem_cons.mp h with h1 | h1
        · exact Or.inl h1
        · exact Or.inr (List.mem_cons_of_mem _ h1)
      · rw [alistInsert, if_neg h0] at h
        rcases List.mem_cons.mp h with h1 | h1
        · exact Or.inr (by simp [h1])
        · rcases ih p h1 with h2 | h2
          · exact Or.inl h2
          · exact Or.inr (List.mem_cons_of_mem _ h2)

theorem alistLookup_mem {β : Type} (k : List Token) (v : β) :
    ∀ l : List (List Token × β), alistLookup k l = some v → (k, v) ∈ l := by
  intro l
  induction l with
  | nil => intro h; simp [alistLookup] at h
  | cons e rest ih =>
      obtain ⟨k0, v0⟩ := e
      intro h
      by_cases h0 : k0 = k
      · subst h0
        rw [alistLookup, if_pos rfl] at h
        obtain rfl : v0 = v := Option.some.inj h
        exact List.mem_cons_self _ _
      · rw [alistLookup, if_neg h0] at h
        exact List.mem_cons_of_mem _ (ih h)

theorem mem_wordInsert (w : Token) (v : ℚ) :
    ∀ (d : NextDist) (p : Token × ℚ),
      p ∈ wordInsert w v d → p = (w, v) ∨ p ∈ d := by
  intro d
  induction d with
  | nil => intro p h; simpa [wordInsert] using h
  | cons e rest ih =>
      obtain ⟨w0, v0⟩ := e
      intro p h
      by_cases h0 : w0 = w
      · rw [wordInsert, if_pos h0] at h
        rcases List.mem_cons.mp h with h1 | h1
        · exact Or.inl h1
        · exact Or.inr (List.mem_cons_of_mem _ h1)
      · rw [wordInsert, if_neg h0] at h
        rcases List.mem_cons.mp h with h1 | h1
        · exact Or.inr (by simp [h1])
        · rcases ih p h1 with h2 | h2
          · exact Or.inl h2
          · exact Or.inr (List.mem_cons_of_mem _ h2)

theorem wordLookup_mem (w : Token) (v : ℚ) :
    ∀ d : NextDist, wordLookup w d = some v → (w, v) ∈ d := by
  intro d
  induction d with
  | nil => intro h; simp [wordLookup] at h
  | cons e rest ih =>
      obtain ⟨w0, v0⟩ := e
      intro h
      by_cases h0 : w0 = w
      · subst h0
        rw [wordLookup, if_pos rfl] at h
        obtain rfl : v0 = v := Option.some.inj h
        exact List.mem_cons_self _ _
      · rw [wordLookup, if_neg h0] at h
        exact List.mem_cons_of_mem _ (ih h)

theorem wordInsert_ne_nil (w : Token) (v : ℚ) (d : NextDist) :
    wordInsert w v d ≠ [] := by
  cases d with
  | nil => simp [wordInsert]
  | cons e rest =>
      obtain ⟨w0, v0⟩ := e
      by_cases h0 : w0 = w <;> simp [wordInsert, h0]

theorem alistLookup_normalizeMapping (k : List Token) :
    ∀ l : Mapping,
      alistLookup k (normalizeMapping l) = (alistLookup k l).map normDist := by
  intro l
  induction l with
  | nil => simp [normalizeMapping, alistLookup]
  | cons e rest ih =>
      obtain ⟨k0, d0⟩ := e
      by_cases h0 : k0 = k
      · simp [normalizeMapping, alistLookup, h0]
      · simpa [normalizeMapping, alistLookup, h0] using ih

/-! ### The positivity invariant of the temporary mapping, and claim C1 -/

/-- All weights of a distribution are positive. -/
def DistPos (d : NextDist) : Prop := ∀ q ∈ d, (0 : ℚ) < q.2

/-- Every registered context of a (temporary) mapping carries a nonempty
distribution of positive counts. -/
def TempInv (m : Mapping) : Prop := ∀ e ∈ m, e.2 ≠ [] ∧ DistPos e.2

theorem bumpWord_pos {w : Token} {d : NextDist} (hd : DistPos d) :
    DistPos (bumpWord w d) := by
  intro q hq
  unfold bumpWord at hq
  cases hl : wordLookup w d with
  | none =>
      rw [hl] at hq
      rcases mem_wordInsert _ _ _ _ hq with h | h
      · rw [h]; norm_num
      · exact hd _ h
  | some c =>
      rw [hl] at hq
      rcases mem_wordInsert _ _ _ _ hq with h | h
      · rw [h]
        have hc := hd _ (wordLookup_mem _ _ _ hl)
        simp only at hc ⊢
        linarith
      · exact hd _ h

theorem bumpWord_ne_nil (w : Token) (d : NextDist) : bumpWord w d ≠ [] := by
  unfold bumpWord
  cases wordLookup w d <;> exact wordInsert_ne_nil _ _ _

theorem addItemToTempMapping_inv (w : Token) :
    ∀ (h : List Token) (m : Mapping), TempInv m →
      TempInv (addItemToTempMapping h w m) := by
  intro h
  induction h with
  | nil => intro m hm; exact hm
  | cons x rest ih =>
      intro m hm
      refine ih _ ?_
      intro e he
      rcases mem_alistInsert _ _ _ _ he with h' | h'
      · subst h'
        refine ⟨bumpWord_ne_nil _ _, bumpWord_pos ?_⟩
        cases hl : alistLookup (x :: rest) m with
        | none => simp [DistPos]
        | some d0 => simpa using (hm _ (alistLookup_mem _ _ _ hl)).2
      · exact hm _ h'

theorem buildStep_inv {tl : List Token} {K : ℕ} {st st' : List Token × Mapping}
    {i : ℕ} (hst : TempInv st.2) (h : buildStep tl K st i = .ok st') :
    TempInv st'.2 := by
  unfold buildStep at h
  cases hlast : (historyAt tl K i).getLast? with
  | none => rw [hlast] at h; exact absurd h (by simp)
  | some lastTok =>
      rw [hlast] at h
      simp only [Except.ok.injEq] at h
      subst h
      exact addItemToTempMapping_inv _ _ _ hst

theorem runSteps_inv {tl : List Token} {K : ℕ} :
    ∀ (is : List ℕ) (st st' : List Token × Mapping), TempInv st.2 →
      runSteps tl K is st = .ok st' → TempInv st'.2 := by
  intro is
  induction is with
  | nil =>
      intro st st' hst h
      simp only [runSteps, Except.ok.injEq] at h
      subst h; exact hst
  | cons i rest ih =>
      intro st st' hst h
      rw [runSteps] at h
      cases hstep : buildStep tl K st i with
      | error e => rw [hstep] at h; exact absurd h (by simp)
      | ok st1 =>
          rw [hstep] at h
          exact ih _ _ (buildStep_inv hst hstep) h

theorem sum_map_div (l : List ℚ) (c : ℚ) :
    (l.map (fun v => v / c)).sum = l.sum / c := by
  induction l with
  | nil => simp
  | cons a rest ih => simp [ih, add_div]

theorem distTotal_pos :
    ∀ d : NextDist, d ≠ [] → DistPos d → 0 < distTotal d := by
  intro d
  induction d with
  | nil => intro hne _; exact absurd rfl hne
  | cons q rest ih =>
      intro _ hd
      have hq : 0 < q.2 := hd _ (List.mem_cons_self _ _)
      cases rest with
      | nil => simpa [distTotal] using hq
      | cons q2 rest2 =>
          have h2 : 0 < distTotal (q2 :: rest2) :=
            ih (by simp) (fun p hp => hd _ (List.mem_cons_of_mem _ hp))
          simp only [distTotal, List.map_cons, List.sum_cons] at h2 ⊢
          linarith

theorem distTotal_normDist {d : NextDist} (hne : d ≠ []) (hd : DistPos d) :
    distTotal (normDist d) = 1 := by
  have hpos := distTotal_pos d hne hd
  unfold distTotal normDist
  rw [List.map_map]
  have h1 : (Prod.snd ∘ fun p : Token × ℚ => (p.1, p.2 / distTotal d))
      = (fun v => v / distTotal d) ∘ Prod.snd := rfl
  rw [h1, ← List.map_map, sum_map_div]
  exact div_self (ne_of_gt hpos)

/-- C1. For every model trained on any token sequence, after normalization,
and for every context key in its transition table, the sum of the
next-token probabilities stored under that context equals 1.0 within a
tolerance of 1e-9 (in the exact-rational embedding the sum is exactly 1,
so the floating tolerance is met). -/
theorem C1_normalized_rows_sum_to_one (tl : List Token) (K : ℕ)
    (starts : List Token) (m : Mapping)
    (h : buildMapping tl K = .ok (starts, m)) (key : List Token)
    (dist : NextDist) (hk : alistLookup key m = some dist) :
    |distTotal dist - 1| ≤ 1 / 10 ^ 9 := by
  cases tl with
  | nil => simp [buildMapping] at h
  | cons t0 rest =>
      simp only [buildMapping] at h
      cases hrun : runSteps (t0 :: rest) K
          (List.range' 1 ((t0 :: rest).length - 2)) ([t0], []) with
      | error e => rw [hrun] at h; exact absurd h (by simp [Except.map])
      | ok st =>
          obtain ⟨starts0, temp⟩ := st
          rw [hrun] at h
          simp only [Except.map, Except.ok.injEq, Prod.mk.injEq] at h
          obtain ⟨-, hm⟩ := h
          have hinv : TempInv temp :=
            runSteps_inv _ _ _ (by intro e he; simp at he) hrun
          subst hm
          rw [alistLookup_normalizeMapping] at hk
          cases hl : alistLookup key temp with
          | none => rw [hl] at hk; simp at hk
          | some d0 =>
              rw [hl] at hk
              simp only [Option.map_some', Option.some.injEq] at hk
              obtain ⟨hne, hpos⟩ := hinv _ (alistLookup_mem _ _ _ hl)
              rw [← hk, distTotal_normDist hne hpos]
              norm_num

/-- The finalized mapping the code builds from `["The","cat","sat","."]`
with order 1 (note the length-2 context and the absence of `("The",)`). -/
def M4 : Mapping :=
  [(["The", "cat"], [("sat", 1)]), (["cat"], [("sat", 1)]), (["sat"], [(".", 1)])]

/-- Shared evaluation fact: what training on `["The","cat","sat","."]` with
order 1 actually produces. -/
theorem buildMapping_The_cat :
    buildMapping ["The", "cat", "sat", "."] 1 = .ok (["The"], M4) := by
  norm_num +decide [buildMapping, runSteps, buildStep, historyAt,
    addItemToTempMapping, alistInsert, alistLookup, bumpWord, wordLookup,
    wordInsert, normalizeMapping, normDist, distTotal, pyInStr, hasSub,
    startsWithL, sentence_ending_punct, punct_with_space_after, M4,
    Except.map, List.range']

/-- Witness for C1 at a concrete training run. -/
theorem C1_witness :
    buildMapping ["The", "cat", "sat", "."] 1 = .ok (["The"], M4) ∧
    alistLookup ["cat"] M4 = some [("sat", 1)] ∧
    |distTotal [("sat", (1 : ℚ))] - 1| ≤ 1 / 10 ^ 9 :=
  ⟨buildMapping_The_cat, by norm_num [alistLookup, M4],
   C1_normalized_rows_sum_to_one ["The", "cat", "sat", "."] 1 ["The"] M4
     buildMapping_The_cat ["cat"] [("sat", 1)]
     (by norm_num [alistLookup, M4])⟩

/-! ### Suffix closure of the registered contexts, and claim C2 -/

theorem addItemToTempMapping_isSome (w : Token) :
    ∀ (h : List Token) (m : Mapping) (k : List Token),
      (alistLookup k (addItemToTempMapping h w m)).isSome
        ↔ (alistLookup k m).isSome ∨ (k ≠ [] ∧ k <:+ h) := by
  intro h
  induction h with
  | nil =>
      intro m k
      simp only [addItemToTempMapping]
      constructor
      · exact Or.inl
      · rintro (hk | ⟨hne, hsuf⟩)
        · exact hk
        · exact absurd (List.suffix_nil.mp hsuf) hne
  | cons x rest ih =>
      intro m k
      rw [addItemToTempMapping, ih, alistLookup_isSome_alistInsert]
      constructor
      · rintro ((hk | hk) | ⟨hne, hsuf⟩)
        · exact Or.inr ⟨by simp [hk], by rw [hk]⟩
        · exact Or.inl hk
        · exact Or.inr ⟨hne, hsuf.trans (List.suffix_cons x rest)⟩
      · rintro (hk | ⟨hne, hsuf⟩)
        · exact Or.inl (Or.inr hk)
        · rcases List.suffix_cons_iff.mp hsuf with h1 | h1
          · exact Or.inl (Or.inl h1)
          · exact Or.inr ⟨hne, h1⟩

/-- The registered contexts are closed under nonempty trailing suffixes. -/
def SufClosed (m : Mapping) : Prop :=
  ∀ k, (alistLookup k m).isSome →
    ∀ s, s ≠ [] → s <:+ k → (alistLookup s m).isSome

theorem addItemToTempMapping_sufClosed {w : Token} {h : List Token}
    {m : Mapping} (hm : SufClosed m) :
    SufClosed (addItemToTempMapping h w m) := by
  intro k hk s hne hsuf
  rw [addItemToTempMapping_isSome] at hk ⊢
  rcases hk with hk | ⟨-, hk⟩
  · exact Or.inl (hm k hk s hne hsuf)
  · exact Or.inr ⟨hne, hsuf.trans hk⟩

theorem buildStep_sufClosed {tl : List Token} {K : ℕ}
    {st st' : List Token × Mapping} {i : ℕ} (hst : SufClosed st.2)
    (h : buildStep tl K st i = .ok st') : SufClosed st'.2 := by
  unfold buildStep at h
  cases hlast : (historyAt tl K i).getLast? with
  | none => rw [hlast] at h; exact absurd h (by simp)
  | some lastTok =>
      rw [hlast] at h
      simp only [Except.ok.injEq] at h
      subst h
      exact addItemToTempMapping_sufClosed hst

theorem runSteps_sufClosed {tl : List Token} {K : ℕ} :
    ∀ (is : List ℕ) (st st' : List Token × Mapping), SufClosed st.2 →
      runSteps tl K is st = .ok st' → SufClosed st'.2 := by
  intro is
  induction is with
  | nil =>
      intro st st' hst h
      simp only [runSteps, Except.ok.injEq] at h
      subst h; exact hst
  | cons i rest ih =>
      intro st st' hst h
      rw [runSteps] at h
      cases hstep : buildStep tl K st i with
      | error e => rw [hstep] at h; exact absurd h (by simp)
      | ok st1 =>
          rw [hstep] at h
          exact ih _ _ (buildStep_sufClosed hst hstep) h

/-- C2. For every training input of at least 2 tokens and every order
K ≥ 1, whenever a context is registered as a key in the transition table,
every nonempty trailing suffix of that context is also a key of the table,
so context-shortening lookup always reaches a registered context of
length 1. -/
theorem C2_trailing_suffixes_registered (tl : List Token) (K : ℕ)
    (hK : 1 ≤ K) (hlen : 2 ≤ tl.length) (starts : List Token) (m : Mapping)
    (h : buildMapping tl K = .ok (starts, m)) (key : List Token)
    (hkey : (alistLookup key m).isSome) (s : List Token) (hne : s ≠ [])
    (hsuf : s <:+ key) : (alistLookup s m).isSome := by
  cases tl with
  | nil => simp at hlen
  | cons t0 rest =>
      simp only [buildMapping] at h
      cases hrun : runSteps (t0 :: rest) K
          (List.range' 1 ((t0 :: rest).length - 2)) ([t0], []) with
      | error e => rw [hrun] at h; exact absurd h (by simp [Except.map])
      | ok st =>
          obtain ⟨starts0, temp⟩ := st
          rw [hrun] at h
          simp only [Except.map, Except.ok.injEq, Prod.mk.injEq] at h
          obtain ⟨-, hm⟩ := h
          have hcl : SufClosed temp :=
            runSteps_sufClosed _ _ _ (by intro k hk; simp [alistLookup] at hk) hrun
          subst hm
          rw [alistLookup_normalizeMapping, Option.isSome_map'] at hkey ⊢
          exact hcl key hkey s hne hsuf

/-- Witness for C2 at a concrete training run. -/
theorem C2_witness :
    buildMapping ["The", "cat", "sat", "."] 1 = .ok (["The"], M4) ∧
    (alistLookup ["cat"] M4).isSome :=
  ⟨buildMapping_The_cat,
   C2_trailing_suffixes_registered ["The", "cat", "sat", "."] 1 (by decide)
     (by decide) ["The"] M4 buildMapping_The_cat ["The", "cat"]
     (by norm_num [alistLookup, M4]) ["cat"] (by decide) (by decide)⟩

/-! ### The sampling loop, and claim C3 -/

theorem pickLoop_exhausts {u : ℚ} :
    ∀ (d : NextDist) (acc : ℚ), (∀ q ∈ d, (0 : ℚ) ≤ q.2) →
      acc + distTotal d < u → pickLoop u acc d = "" := by
  intro d
  induction d with
  | nil => intro acc _ _; rfl
  | cons q rest ih =>
      intro acc hnn hlt
      have hrest : (0 : ℚ) ≤ distTotal rest := by
        have : ∀ x ∈ rest.map Prod.snd, (0 : ℚ) ≤ x := by
          intro x hx
          obtain ⟨p, hp, rfl⟩ := List.mem_map.mp hx
          exact hnn _ (List.mem_cons_of_mem _ hp)
        exact List.sum_nonneg this
      have htot : distTotal (q :: rest) = q.2 + distTotal rest := by
        simp [distTotal]
      have hq : ¬ u ≤ acc + q.2 := by
        rw [htot] at hlt
        push_neg
        linarith
      obtain ⟨k, v⟩ := q
      rw [pickLoop, if_neg hq]
      exact ih (acc + v) (fun p hp => hnn _ (List.mem_cons_of_mem _ hp))
        (by rw [htot] at hlt; simp only at hlt ⊢; linarith)

/-- A one-context mapping whose single distribution sums to `1 - 1e-10`:
within the spec's own finalization tolerance of 1e-9, as a floating-point
normalization can be. -/
def Mex : Mapping := [(["a"], [("b", 1 - 1 / 10 ^ 10)])]

/-- A uniform draw in [0,1) that exceeds the accumulated weight of `Mex`. -/
def uEx : ℚ := 1 - 1 / 10 ^ 11

/-- Counterexample to C3 as stated: a model finalized within the spec's own
1e-9 tolerance, a nonempty history matching the context `["a"]`, and a draw
`u ∈ [0,1)` that the accumulated weights never reach; the code returns the
empty string `""` (the initial `retval`), not the last token `"b"` of the
distribution. -/
theorem C3_counterexample :
    Mex = [(["a"], [("b", 1 - 1 / 10 ^ 10)])] ∧
    |distTotal [("b", 1 - 1 / 10 ^ 10)] - 1| ≤ 1 / 10 ^ 9 ∧
    (0 ≤ uEx ∧ uEx < 1) ∧
    shortenLoop Mex ["a"] = some ["a"] ∧
    alistLookup ["a"] Mex = some [("b", 1 - 1 / 10 ^ 10)] ∧
    distTotal [("b", 1 - 1 / 10 ^ 10)] < uEx ∧
    (nextToken ["a"] Mex uEx).1 = "" ∧
    (nextToken ["a"] Mex uEx).1 ≠ "b" := by
  refine ⟨rfl, ?_, ⟨by norm_num [uEx], by norm_num [uEx]⟩, ?_, ?_, ?_, ?_, ?_⟩
  · have h1 : distTotal [("b", (1 : ℚ) - 1 / 10 ^ 10)] - 1 = -(1 / 10 ^ 10) := by
      norm_num [distTotal]
    rw [h1, abs_neg, abs_of_pos (by norm_num : (0 : ℚ) < 1 / 10 ^ 10)]
    norm_num
  · norm_num [shortenLoop, alistLookup, Mex]
  · norm_num [alistLookup, Mex]
  · norm_num [distTotal, uEx]
  · norm_num [nextToken, shortenLoop, alistLookup, Mex, pickLoop, uEx]
  · have h2 : (nextToken ["a"] Mex uEx).1 = "" := by
      norm_num [nextToken, shortenLoop, alistLookup, Mex, pickLoop, uEx]
    rw [h2]
    decide

/-- C3 (amended). For every mapping and history, `next` never raises: if
shortening empties the history without a registered context it returns the
sentinel `"."` (leaving the history empty and the mapping untouched), and
if the accumulated weights of the matched context's distribution never
reach the drawn value `u`, it returns the empty string `""` — the code has
no last-token fallback. -/
theorem C3_sample_next_behavior (m : Mapping) (prev : List Token) (u : ℚ) :
    (shortenLoop m prev = none → nextToken prev m u = (".", [], m)) ∧
    (∀ l dist, shortenLoop m prev = some l → alistLookup l m = some dist →
      (∀ q ∈ dist, (0 : ℚ) ≤ q.2) → distTotal dist < u →
      (nextToken prev m u).1 = "") := by
  constructor
  · intro hs
    rw [nextToken, hs]
  · intro l dist hs hd hnn hlt
    rw [nextToken, hs]
    simp only [hd, Option.getD_some]
    exact pickLoop_exhausts dist 0 hnn (by linarith)

/-- Witness for C3 (amended), exercising both the sentinel branch and the
empty-string exhaustion branch at concrete inputs. -/
theorem C3_witness :
    nextToken ["q"] [] 0 = (".", [], []) ∧ (nextToken ["a"] Mex uEx).1 = "" :=
  ⟨(C3_sample_next_behavior [] ["q"] 0).1 rfl,
   (C3_sample_next_behavior Mex ["a"] uEx).2 ["a"] [("b", 1 - 1 / 10 ^ 10)]
     (by norm_num [shortenLoop, alistLookup, Mex])
     (by norm_num [alistLookup, Mex])
     (by norm_num) (by norm_num [distTotal, uEx])⟩

/-! ### The concrete order-1 example, claim C4 -/

/-- Counterexample to C4 as stated: training on `["The","cat","sat","."]`
with order 1 does produce StartSet `["The"]`, but the table has no key
`("The",)` at all (the first registered context is the length-2
`("The","cat")`), and `next(["The"])` therefore shortens past the whole
history and returns the sentinel `"."`, never `"cat"`. -/
theorem C4_counterexample :
    buildMapping ["The", "cat", "sat", "."] 1 = .ok (["The"], M4) ∧
    alistLookup ["The"] M4 = none ∧
    (nextToken ["The"] M4 (1 / 2)).1 = "." ∧
    (nextToken ["The"] M4 (1 / 2)).1 ≠ "cat" := by
  refine ⟨buildMapping_The_cat, by norm_num +decide [alistLookup, M4], ?_, ?_⟩
  · norm_num +decide [nextToken, shortenLoop, alistLookup, M4]
  · have h1 : (nextToken ["The"] M4 (1 / 2)).1 = "." := by
      norm_num +decide [nextToken, shortenLoop, alistLookup, M4]
    rw [h1]
    decide

/-- C4 (amended). Training on `["The","cat","sat","."]` with order 1 yields
StartSet `["The"]`; the registered contexts are `("The","cat")`, `("cat",)`
and `("sat",)` — not `("The",)`; the context `("cat",)` maps `"sat"` with
probability 1.0; and `next` on the history `["The"]` always returns the
sentinel `"."`, for every drawn value. -/
theorem C4_example_actual_behavior (u : ℚ) :
    buildMapping ["The", "cat", "sat", "."] 1 = .ok (["The"], M4) ∧
    alistLookup ["cat"] M4 = some [("sat", 1)] ∧
    alistLookup ["The"] M4 = none ∧
    nextToken ["The"] M4 u = (".", [], M4) := by
  refine ⟨buildMapping_The_cat, by norm_num +decide [alistLookup, M4],
    by norm_num +decide [alistLookup, M4], ?_⟩
  norm_num +decide [nextToken, shortenLoop, alistLookup, M4]

/-! ### The registered history at each training position, claim C5 -/

/-- Counterexample to C5 as stated: at position `i = 1` with order `K = 1`,
the code registers the length-2 history `["The","cat"]` (`token_list[:2]`),
while the spec's trailing slice of length `min(i+1, K) = 1` is `["cat"]`. -/
theorem C5_counterexample :
    historyAt ["The", "cat", "sat", "."] 1 1 = ["The", "cat"] ∧
    specHistoryAt ["The", "cat", "sat", "."] 1 1 = ["cat"] ∧
    historyAt ["The", "cat", "sat", "."] 1 1
      ≠ specHistoryAt ["The", "cat", "sat", "."] 1 1 := by
  refine ⟨by norm_num [historyAt], by norm_num [specHistoryAt], ?_⟩
  have h1 : historyAt ["The", "cat", "sat", "."] 1 1 = ["The", "cat"] := by
    norm_num [historyAt]
  have h2 : specHistoryAt ["The", "cat", "sat", "."] 1 1 = ["cat"] := by
    norm_num [specHistoryAt]
  rw [h1, h2]
  decide

/-- C5 (amended). At each training position `1 ≤ i ≤ n - 2` (with order
K ≥ 1), the step registers `tokens[i+1]` in the temp mapping under the
trailing slice of the token list ending at index `i` whose length is
`i + 1` when `i ≤ K` (hence `K + 1` at `i = K`), and `K` when `i > K` —
and `addItemToTempMapping` registers it under that history and all its
trailing suffixes. -/
theorem C5_registered_history (tl : List Token) (K i : ℕ)
    (st : List Token × Mapping) (hK : 1 ≤ K) (hi : 1 ≤ i)
    (hn : i + 2 ≤ tl.length) :
    historyAt tl K i
        = (tl.take (i + 1)).drop (i + 1 - (if i ≤ K then i + 1 else K)) ∧
    (buildStep tl K st i).map (fun r => r.2)
        = .ok (addItemToTempMapping (historyAt tl K i) (tl.getD (i + 1) "") st.2) := by
  have hshape : historyAt tl K i
      = (tl.take (i + 1)).drop (i + 1 - (if i ≤ K then i + 1 else K)) := by
    unfold historyAt
    by_cases h : i ≤ K
    · simp [h]
    · rw [if_neg h, if_neg h]
      have hK1 : K ≤ i + 1 := by omega
      rw [List.take_drop, Nat.sub_add_cancel hK1]
  have hne : historyAt tl K i ≠ [] := by
    unfold historyAt
    by_cases h : i ≤ K
    · rw [if_pos h]
      have : tl ≠ [] := by
        intro hnil; rw [hnil] at hn; simp at hn
      simp [List.take_eq_nil_iff, this]
    · rw [if_neg h]
      have hlen : 0 < ((tl.drop (i + 1 - K)).take K).length := by
        rw [List.length_take, List.length_drop]
        omega
      exact List.ne_nil_of_length_pos hlen
  refine ⟨hshape, ?_⟩
  cases hlast : (historyAt tl K i).getLast? with
  | none => exact absurd (List.getLast?_eq_none_iff.mp hlast) hne
  | some lastTok =>
      rw [buildStep, hlast]
      rfl

/-- Witness for C5 (amended) at a concrete position (`i = 2 > K = 1`). -/
theorem C5_witness :
    historyAt ["The", "cat", "sat", "."] 1 2
        = ((["The", "cat", "sat", "."] : List Token).take 3).drop
            (3 - (if 2 ≤ 1 then 3 else 1)) ∧
    (buildStep ["The", "cat", "sat", "."] 1 (["The"], []) 2).map (fun r => r.2)
        = .ok (addItemToTempMapping (historyAt ["The", "cat", "sat", "."] 1 2)
            ((["The", "cat", "sat", "."] : List Token).getD 3 "") []) :=
  C5_registered_history ["The", "cat", "sat", "."] 1 2 (["The"], [])
    (by decide) (by decide) (by decide)

/-! ### Paragraph generation termination, claim C6 -/

/-- C6 (code behavior at the failing input). On every Python ≥ 3.7 the
trailing `raise StopIteration` of the `_produce_text` generator body is
converted to `RuntimeError` (PEP 479), so the produced sequence never
terminates normally: with `sentences_desired = 0` it raises after yielding
zero paragraphs instead of terminating normally, and with
`sentences_desired = 3` (break probability 0) it raises after yielding the
single forced-flush paragraph. -/
theorem C6_produce_text_raises_at_exhaustion :
    produceText 0 (1 / 4) (fun _ => "Hi.") (fun _ => 1 / 2) id
      = ([], .runtimeError) ∧
    produceText 3 0 (fun _ => "Hi.") (fun _ => 1 / 2) id
      = (["Hi. Hi. Hi.\n"], .runtimeError) := by
  constructor
  · rfl
  · norm_num +decide [produceText, produceLoop, List.range_succ]

/-! ### Repeated training replaces the model, claim C7 -/

/-- The model state after the first training call of the C7 scenario. -/
def model7a : MarkovChainTextModel :=
  { the_starts := some ["a"], markov_length := 1,
    the_mapping := some [(["a", "b"], [("c", 1)]), (["b"], [("c", 1)]),
      (["c"], [("d", 1)])],
    character_tokens := false }

/-- The model state after the second training call of the C7 scenario. -/
def model7b : MarkovChainTextModel :=
  { the_starts := some ["x"], markov_length := 1,
    the_mapping := some [(["x", "y"], [("z", 1)]), (["y"], [("z", 1)]),
      (["z"], [("w", 1)])],
    character_tokens := false }

/-- Counterexample to C7 as stated: training on `["a","b","c","d"]`
registers the transition `("b",) → "c"`, but after a second training call
on `["x","y","z","w"]` that transition is gone — each `_build_mapping`
call rebuilds `the_mapping`, `the_starts` and `markov_length` from scratch
and the earlier corpus's counts contribute nothing. -/
theorem C7_counterexample :
    buildMappingS initModel ["a", "b", "c", "d"] 1 false = .ok model7a ∧
    (model7a.the_mapping.bind (alistLookup ["b"])) = some [("c", 1)] ∧
    buildMappingS model7a ["x", "y", "z", "w"] 1 false = .ok model7b ∧
    (model7b.the_mapping.bind (alistLookup ["b"])) = none := by
  refine ⟨?_, by norm_num +decide [model7a, alistLookup], ?_,
    by norm_num +decide [model7b, alistLookup]⟩
  · norm_num +decide [buildMappingS, buildMapping, runSteps, buildStep,
      historyAt, addItemToTempMapping, alistInsert, alistLookup, bumpWord,
      wordLookup, wordInsert, normalizeMapping, normDist, distTotal, pyInStr,
      hasSub, startsWithL, sentence_ending_punct, punct_with_space_after,
      initModel, model7a, Except.map, List.range']
  · norm_num +decide [buildMappingS, buildMapping, runSteps, buildStep,
      historyAt, addItemToTempMapping, alistInsert, alistLookup, bumpWord,
      wordLookup, wordInsert, normalizeMapping, normDist, distTotal, pyInStr,
      hasSub, startsWithL, sentence_ending_punct, punct_with_space_after,
      model7a, model7b, Except.map, List.range']

/-- C7 (amended). Each training call rebuilds the model from the new token
list alone, overwriting every field of the chains: the result is
independent of the state the model was in before the call. Blending of
several corpora happens only inside a single `train()` call, which
concatenates its input files into one text. -/
theorem C7_training_replaces_model (c c' : MarkovChainTextModel)
    (tl : List Token) (K : ℕ) (ct : Bool) :
    buildMappingS c tl K ct = buildMappingS c' tl K ct := by
  cases h : buildMapping tl K <;> simp [buildMappingS, h]

/-! ### Empty training input, claim C8 -/

/-- Counterexample to C8 as stated: on an empty token sequence the training
code raises IndexError (from `starts.append(token_list[0])`), not any
`InvalidInputError` — no such class exists anywhere in the code. -/
theorem C8_counterexample :
    buildMapping ([] : List Token) 1 = .error .indexError ∧
    PyError.indexError ≠ PyError.invalidInputError :=
  ⟨rfl, by decide⟩

/-- C8 (amended). For every order, training on an empty token sequence
fails fast, but with an uncaught IndexError rather than a dedicated
invalid-input error: `train()` only asserts that the *file list* is
nonempty and `_build_mapping` immediately indexes `token_list[0]`. -/
theorem C8_empty_tokens_index_error (K : ℕ) :
    buildMapping ([] : List Token) K = .error .indexError := rfl

/-! ### The starts list and first-token selection, claim C9 -/

/-- A training input in which the token `"b"` follows sentence-ending
punctuation twice. -/
def tl9 : List Token := ["a", ".", "b", ".", "b", "."]

/-- The mapping trained from `tl9` with order 1. -/
def map9 : Mapping :=
  [(["a", "."], [("b", 1)]), (["."], [("b", 1)]), (["b"], [(".", 1)])]

/-- Shared evaluation fact: training on `tl9` appends `"b"` to the starts
list twice, so `the_starts = ["a", "b", "b"]`. -/
theorem buildMapping_tl9 : buildMapping tl9 1 = .ok (["a", "b", "b"], map9) := by
  norm_num +decide [buildMapping, runSteps, buildStep, historyAt,
    addItemToTempMapping, alistInsert, alistLookup, bumpWord, wordLookup,
    wordInsert, normalizeMapping, normDist, distTotal, pyInStr, hasSub,
    startsWithL, sentence_ending_punct, punct_with_space_after, tl9, map9,
    Except.map, List.range']

/-- Counterexample to C9 as stated: after training on `tl9` the starts list
is `["a", "b", "b"]` — `"b"` appears twice (`starts` is a plain list with
no deduplication), so `random.choice` over it is not uniform over the
distinct members (`"b"` is twice as likely as `"a"`). -/
theorem C9_counterexample :
    buildMapping tl9 1 = .ok (["a", "b", "b"], map9) ∧
    ¬ (["a", "b", "b"] : List Token).Nodup ∧
    (["a", "b", "b"] : List Token).count "b" = 2 ∧
    (["a", "b", "b"] : List Token).count "a" = 1 :=
  ⟨buildMapping_tl9, by decide, by decide, by decide⟩

theorem count_chooseStart (t : Token) :
    ∀ s : List Token,
      ((List.range s.length).filter (fun j => chooseStart s j = t)).length
        = s.count t := by
  intro s
  induction s with
  | nil => simp
  | cons a rest ih =>
      have hcomp : ((fun j => decide (chooseStart (a :: rest) j = t)) ∘ Nat.succ)
          = (fun j => decide (chooseStart rest j = t)) := by
        funext j; rfl
      rw [List.length_cons, List.range_succ_eq_map, List.filter_cons,
        List.filter_map, hcomp, List.count_cons]
      have ih' : (List.filter (fun j => decide (rest[j]?.getD "" = t))
          (List.range rest.length)).length = List.count t rest := by
        simpa [chooseStart] using ih
      by_cases hat : a = t
      · simp [chooseStart, hat, ih']
      · simp [chooseStart, hat, ih']

/-- C9 (amended). After any training, the starts list may contain a token
several times, and the first token of a generated sentence is chosen as
`starts[j]` for a uniformly random index `j`: the number of indices that
yield a given token equals the token's multiplicity in the list, so
selection is uniform over list positions, not over distinct members. -/
theorem C9_start_choice_weighted_by_multiplicity (tl : List Token) (K : ℕ)
    (starts : List Token) (m : Mapping)
    (h : buildMapping tl K = .ok (starts, m)) (t : Token) :
    ((List.range starts.length).filter
        (fun j => chooseStart starts j = t)).length = starts.count t :=
  count_chooseStart t starts

/-- Witness for C9 (amended): two of the three positions of
`["a", "b", "b"]` select `"b"`. -/
theorem C9_witness :
    ((List.range (3 : ℕ)).filter
        (fun j => chooseStart ["a", "b", "b"] j = "b")).length
      = (["a", "b", "b"] : List Token).count "b" :=
  C9_start_choice_weighted_by_multiplicity tl9 1 ["a", "b", "b"] map9
    buildMapping_tl9 "b"

/-! ### In-place shortening and the frame of `next`, claim C10 -/

theorem shortenLoop_sound (m : Mapping) :
    ∀ prev : List Token,
      (∀ l, shortenLoop m prev = some l →
        l <:+ prev ∧ (alistLookup l m).isSome ∧
        ∀ l', l' <:+ prev → (alistLookup l' m).isSome → l' <:+ l) ∧
      (shortenLoop m prev = none →
        ∀ l', l' <:+ prev → ¬ (alistLookup l' m).isSome) := by
  intro prev
  induction prev with
  | nil =>
      constructor
      · intro l hl
        by_cases h : (alistLookup ([] : List Token) m).isSome
        · rw [shortenLoop, if_pos h] at hl
          cases hl
          refine ⟨List.suffix_refl _, h, ?_⟩
          intro l' hl' _
          rw [List.suffix_nil.mp hl']
        · rw [shortenLoop, if_neg h] at hl
          exact absurd hl (by simp)
      · intro hn l' hl' hsome
        rw [List.suffix_nil.mp hl'] at hsome
        by_cases h : (alistLookup ([] : List Token) m).isSome
        · rw [shortenLoop, if_pos h] at hn
          exact absurd hn (by simp)
        · exact h hsome
  | cons x rest ih =>
      constructor
      · intro l hl
        by_cases h : (alistLookup (x :: rest) m).isSome
        · rw [shortenLoop, if_pos h] at hl
          cases hl
          exact ⟨List.suffix_refl _, h, fun l' hl' _ => hl'⟩
        · rw [shortenLoop, if_neg h] at hl
          obtain ⟨hsuf, hsome, hmax⟩ := ih.1 l hl
          refine ⟨hsuf.trans (List.suffix_cons x rest), hsome, ?_⟩
          intro l' hl' hsome'
          rcases List.suffix_cons_iff.mp hl' with h1 | h1
          · exact absurd (h1 ▸ hsome') h
          · exact hmax l' h1 hsome'
      · intro hn l' hl' hsome
        by_cases h : (alistLookup (x :: rest) m).isSome
        · rw [shortenLoop, if_pos h] at hn
          exact absurd hn (by simp)
        · rw [shortenLoop, if_neg h] at hn
          rcases List.suffix_cons_iff.mp hl' with h1 | h1
          · exact h (h1 ▸ hsome)
          · exact ih.2 hn l' h1 hsome

/-- C10. `next` leaves the mapping unchanged and shortens the caller's
history in place by dropping leading elements: the final history (observed
by the caller after the call) is a trailing suffix of the input, it is
either a registered context or empty, and it extends every registered
trailing suffix of the input (i.e. shortening stops at the first
registered context, or empties the list). -/
theorem C10_next_shortens_history_in_place (m : Mapping) (prev : List Token)
    (u : ℚ) :
    (nextToken prev m u).2.2 = m ∧
    (nextToken prev m u).2.1 <:+ prev ∧
    ((alistLookup (nextToken prev m u).2.1 m).isSome
      ∨ (nextToken prev m u).2.1 = []) ∧
    (∀ l, l <:+ prev → (alistLookup l m).isSome →
      l <:+ (nextToken prev m u).2.1) := by
  cases hs : shortenLoop m prev with
  | none =>
      have hnt : nextToken prev m u = (".", [], m) := by
        simp only [nextToken, hs]
      rw [hnt]
      exact ⟨rfl, List.nil_suffix, Or.inr rfl,
        fun l hl hsome => absurd hsome ((shortenLoop_sound m prev).2 hs l hl)⟩
  | some l0 =>
      have hnt : nextToken prev m u
          = (pickLoop u 0 ((alistLookup l0 m).getD []), l0, m) := by
        simp only [nextToken, hs]
      obtain ⟨hsuf, hsome, hmax⟩ := (shortenLoop_sound m prev).1 l0 hs
      rw [hnt]
      exact ⟨rfl, hsuf, Or.inl hsome, fun l hl hs' => hmax l hl hs'⟩

/-- Witness for C10: on the history `["sat", "cat"]` (not registered), the
call pops `"sat"`, stops at the registered `["cat"]`, and returns the
mapping untouched. -/
theorem C10_witness :
    (nextToken ["sat", "cat"] M4 (1 / 3)).2.2 = M4 ∧
    ["cat"] <:+ (nextToken ["sat", "cat"] M4 (1 / 3)).2.1 :=
  ⟨(C10_next_shortens_history_in_place M4 ["sat", "cat"] (1 / 3)).1,
   (C10_next_shortens_history_in_place M4 ["sat", "cat"] (1 / 3)).2.2.2
     ["cat"] (by decide) (by norm_num +decide [alistLookup, M4])⟩

/-- Witness for C4 (amended) at the concrete draw 1/2. -/
theorem C4_witness : nextToken ["The"] M4 (1 / 2) = (".", [], M4) :=
  (C4_example_actual_behavior (1 / 2)).2.2.2

/-- Witness for C7 (amended) at two concrete prior states. -/
theorem C7_witness :
    buildMappingS initModel ["a", "b"] 1 true
      = buildMappingS model7a ["a", "b"] 1 true :=
  C7_training_replaces_model initModel model7a ["a", "b"] 1 true

/-- Witness for C8 (amended) at order 3. -/
theorem C8_witness : buildMapping ([] : List Token) 3 = .error .indexError :=
  C8_empty_tokens_index_error 3
